import Mathlib

/-!
Verification of the crawl engine of `sitemap_generator.py`.

The development shallowly embeds the program's data and control flow:

* URLs are lists of characters (`Str`); `urlparse`, `urlunparse` and
  `urljoin` model the behaviour of the corresponding functions of Python's
  `urllib.parse` on the inputs the program feeds them,
* `CrawlState` mirrors the mutable fields of `SitemapGenerator`
  (`to_visit`, `visited`, `url_frequencies`, the XML entry list),
* `normalizeLink`, `tryAdmitUrl`, `processUrl` embed the body of
  `SitemapGenerator.process_url`, and `crawl` embeds the dispatch loop of
  `SitemapGenerator.generate_sitemap` in its sequential (single worker)
  configuration.
-/

/-- URLs and other pieces of text are modelled as lists of characters. -/
abbrev Str := List Char

/-- Decides whether `needle` is a leading segment of `l`
(Python `str.startswith`). -/
def leadsWith : Str → Str → Bool
  | [], _ => true
  | _ :: _, [] => false
  | a :: as, b :: bs => a == b && leadsWith as bs

/-- Decides whether `needle` occurs as a contiguous substring of `l`
(Python `needle in l` on strings). -/
def containsSub (needle : Str) : Str → Bool
  | [] => needle.isEmpty
  | x :: xs => leadsWith needle (x :: xs) || containsSub needle xs

/-- Splits `l` at the first occurrence of the character `c`:
the first component is the segment before the occurrence, the second is
`some` remainder after it, or `none` when `c` does not occur
(Python `l.split(c, 1)`). -/
def splitFirstL (c : Char) : Str → Str × Option Str
  | [] => ([], none)
  | x :: xs =>
    if x = c then ([], some xs)
    else
      let r := splitFirstL c xs
      (x :: r.1, r.2)

/-- Splits `l` at the last occurrence of `c`: returns
`some (before, after)` with `l = before ++ c :: after` and `c ∉ after`,
or `none` when `c` does not occur (the `str.rfind` idiom). -/
def splitLastL (c : Char) (l : Str) : Option (Str × Str) :=
  match splitFirstL c l.reverse with
  | (revAfter, some revBefore) => some (revBefore.reverse, revAfter.reverse)
  | (_, none) => none

/-- Splits `l` on every occurrence of the character `c`
(Python `str.split(c)`: no collapsing of empty segments, and the result is
never the empty list). -/
def splitChar (c : Char) : Str → List Str
  | [] => [[]]
  | x :: xs =>
    if x = c then [] :: splitChar c xs
    else
      match splitChar c xs with
      | h :: t => (x :: h) :: t
      | [] => [[x]]

/-- Result of `urllib.parse.urlparse`: the six URL components. -/
structure UrlParts where
  scheme : Str
  netloc : Str
  path : Str
  params : Str
  query : Str
  fragment : Str
  deriving DecidableEq, Repr

/-- Characters allowed in a URL scheme
(`urllib.parse.scheme_chars`). -/
def isSchemeChar (c : Char) : Bool :=
  c.isAlpha || c.isDigit || c == '+' || c == '-' || c == '.'

/-- Scheme extraction step of `urllib.parse.urlsplit`: if the text up to the
first `:` is a well-formed scheme it is split off and lowercased, otherwise
the default scheme is used and the input is left whole. -/
def splitScheme (dflt : Str) (l : Str) : Str × Str :=
  match splitFirstL ':' l with
  | (pre, some rest) =>
    if pre ≠ [] ∧ (match pre with | c :: _ => c.isAlpha | [] => false) = true
        ∧ pre.all isSchemeChar = true then
      (pre.map Char.toLower, rest)
    else (dflt, l)
  | (_, none) => (dflt, l)

/-- Characters that terminate a netloc. -/
def isNetlocEnd (c : Char) : Bool := c == '/' || c == '?' || c == '#'

/-- Netloc extraction step of `urllib.parse.urlsplit` (`url[:2] == '//'`
followed by `_splitnetloc`): after a leading `//` the netloc extends up to
the next `/`, `?` or `#`. -/
def splitNetloc (l : Str) : Str × Str :=
  if l.take 2 = ['/', '/'] then
    ((l.drop 2).takeWhile (fun c => !isNetlocEnd c),
     (l.drop 2).dropWhile (fun c => !isNetlocEnd c))
  else ([], l)

/-- Params extraction of `urllib.parse.urlparse` (`_splitparams`): the
params are the text after the first `;` that follows the last `/` (or after
the first `;` at all when the input has no `/`); when no such `;` exists
the input is returned whole. -/
def splitParams (l : Str) : Str × Str :=
  match splitLastL '/' l with
  | some (before, after) =>
    match splitFirstL ';' after with
    | (a1, some a2) => (before ++ '/' :: a1, a2)
    | (_, none) => (l, [])
  | none =>
    match splitFirstL ';' l with
    | (a1, some a2) => (a1, a2)
    | (_, none) => (l, [])

/-- Model of `urllib.parse.urlparse(url, dflt)`: scheme, then `//`-netloc,
then fragment (first `#`), then query (first `?`), then params (guarded by
the presence of `;`), leaving the path. IPv6-bracket and netloc validity
checks of CPython, which only raise errors, are not modelled. -/
def urlparseWith (dflt : Str) (url : Str) : UrlParts :=
  let sr := splitScheme dflt url
  let nr := splitNetloc sr.2
  let fr := splitFirstL '#' nr.2
  let fragment := fr.2.getD []
  let qr := splitFirstL '?' fr.1
  let query := qr.2.getD []
  let pr := if ';' ∈ qr.1 then splitParams qr.1 else (qr.1, [])
  ⟨sr.1, nr.1, pr.1, pr.2, query, fragment⟩

/-- Model of `urllib.parse.urlparse(url)` with the empty default scheme. -/
def urlparse (url : Str) : UrlParts := urlparseWith [] url

/-- Model of `urllib.parse.urlunparse` (via `urlunsplit`): re-assembles the
six components, inserting `;`, `//`, `:`, `?`, `#` as CPython does. -/
def urlunparse (scheme netloc path params query fragment : Str) : Str :=
  let url := if params ≠ [] then path ++ ';' :: params else path
  let url :=
    if netloc ≠ [] ∨ (url ≠ [] ∧ url.take 2 = ['/', '/']) then
      '/' :: '/' :: netloc ++ (if url ≠ [] ∧ url.take 1 ≠ ['/'] then '/' :: url else url)
    else url
  let url := if scheme ≠ [] then scheme ++ ':' :: url else url
  let url := if query ≠ [] then url ++ '?' :: query else url
  if fragment ≠ [] then url ++ '#' :: fragment else url

/-- Schemes for which `urljoin` performs relative resolution
(`urllib.parse.uses_relative`). -/
def usesRelative : List String :=
  ["", "ftp", "http", "gopher", "nntp", "imap", "wais", "file", "https",
   "shttp", "mms", "prospero", "rtsp", "rtspu", "sftp", "svn", "svn+ssh",
   "ws", "wss"]

/-- Schemes whose URLs carry a netloc (`urllib.parse.uses_netloc`). -/
def usesNetloc : List String :=
  ["", "ftp", "http", "gopher", "nntp", "telnet", "imap", "wais", "file",
   "mms", "https", "shttp", "snews", "prospero", "rtsp", "rtspu", "rsync",
   "svn", "svn+ssh", "sftp", "nfs", "git", "git+ssh", "ws", "wss",
   "itms-services"]

/-- The `segments[1:-1] = filter(None, segments[1:-1])` step of
`urllib.parse.urljoin`: empty segments are removed except in the first and
last position. -/
def filterMiddle (l : List Str) : List Str :=
  match l with
  | [] => []
  | [x] => [x]
  | x :: y :: ys =>
    x :: (((y :: ys).dropLast.filter (fun s => s ≠ [])) ++ [(y :: ys).getLastD []])

/-- The dot-segment resolution loop of `urllib.parse.urljoin`: `..` pops
the accumulator (silently on empty), `.` is dropped, anything else is
appended. -/
def resolveSegs (acc : List Str) : List Str → List Str
  | [] => acc
  | seg :: rest =>
    if seg = ['.', '.'] then resolveSegs acc.dropLast rest
    else if seg = ['.'] then resolveSegs acc rest
    else resolveSegs (acc ++ [seg]) rest

/-- Model of `urllib.parse.urljoin(base, url)` following CPython: early
returns for empty arguments, scheme mismatches and absolute `url`s, then
RFC 3986 merge of the base path with the relative path and dot-segment
resolution. -/
def urljoin (base url : Str) : Str :=
  if base = [] then url
  else if url = [] then base
  else
    let b := urlparse base
    let u := urlparseWith b.scheme url
    if u.scheme ≠ b.scheme ∨ String.mk u.scheme ∉ usesRelative then url
    else if String.mk u.scheme ∈ usesNetloc ∧ u.netloc ≠ [] then
      urlunparse u.scheme u.netloc u.path u.params u.query u.fragment
    else
      let netloc := if String.mk u.scheme ∈ usesNetloc then b.netloc else u.netloc
      if u.path = [] ∧ u.params = [] then
        let query := if u.query = [] then b.query else u.query
        urlunparse u.scheme netloc b.path b.params query u.fragment
      else
        let baseParts := splitChar '/' b.path
        let baseParts := if baseParts.getLastD [] ≠ [] then baseParts.dropLast else baseParts
        let segments :=
          if u.path.take 1 = ['/'] then splitChar '/' u.path
          else filterMiddle (baseParts ++ splitChar '/' u.path)
        let resolved := resolveSegs [] segments
        let resolved :=
          if segments.getLastD [] = ['.'] ∨ segments.getLastD [] = ['.', '.'] then
            resolved ++ [[]]
          else resolved
        let joined := List.intercalate ['/'] resolved
        let path := if joined = [] then ['/'] else joined
        urlunparse u.scheme netloc path u.params u.query u.fragment

/-- Content-type acceptance of `process_url` (lines 144-145): the lowercased
header must contain `text/html` or `application/xhtml+xml`. -/
def isHtmlContentType (ct : Str) : Bool :=
  let c := ct.map Char.toLower
  containsSub (("text/html").toList) c || containsSub (("application/xhtml+xml").toList) c

/-- File extensions excluded from the crawl (lines 205-208). -/
def excludedExtensions : List String :=
  [".pdf", ".doc", ".docx", ".xls", ".xlsx", ".jpg", ".jpeg", ".png", ".gif"]

/-- The extension filter of `process_url` (line 209): the parsed path ends
with one of the excluded extensions. -/
def hasExcludedExtension (path : Str) : Bool :=
  excludedExtensions.any (fun e => e.toList.isSuffixOf path)

/-- `SitemapGenerator.get_frequency_priority` (lines 66-75). -/
def getFrequencyPriority (urlDepth : Nat) : String × String :=
  if urlDepth = 0 then ("daily", "1.0")
  else if urlDepth = 1 then ("weekly", "0.8")
  else if urlDepth = 2 then ("monthly", "0.6")
  else ("monthly", "0.4")

/-- URL depth as computed in `add_url_to_sitemap` (line 83): the number of
non-empty `/`-separated segments of the parsed path, with the path `/`
special-cased to 0. -/
def urlDepth (url : Str) : Nat :=
  let path := (urlparse url).path
  if path ≠ ['/'] then ((splitChar '/' path).filter (fun p => p ≠ [])).length else 0

/-- One `<url>` element of the sitemap as built by `add_url_to_sitemap`
(lines 88-117): the `<loc>` text is the url verbatim, `<changefreq>` and
`<priority>` come from `get_frequency_priority` at the url's depth. The
`<lastmod>` child, the current date at insertion time, is not modelled. -/
structure SitemapEntry where
  loc : Str
  changefreq : String
  priority : String
  deriving DecidableEq, Repr

/-- The entry `add_url_to_sitemap` appends for `url`. -/
def mkEntry (url : Str) : SitemapEntry :=
  ⟨url, (getFrequencyPriority (urlDepth url)).1, (getFrequencyPriority (urlDepth url)).2⟩

/-- Mutable state of `SitemapGenerator` (lines 37-43 and the XML entry
list): `pending` is the FIFO queue `to_visit`, `visited` and `freqs` are
the sets `visited` and `url_frequencies` (modelled as duplicate-free-by-use
lists), `sitemap` is the list of `<url>` elements of the XML document.
`admitted` is a ghost field with no counterpart in the code: it records, in
order, every URL ever put into `to_visit`, so that invariants about
admission can be stated. -/
structure CrawlState where
  pending : List Str
  visited : List Str
  freqs : List Str
  sitemap : List SitemapEntry
  admitted : List Str
  deriving DecidableEq, Repr

/-- Constructor state (lines 37-43): `to_visit` is seeded with the base URL
exactly as provided, and both sets start empty. -/
def initState (baseUrl : Str) : CrawlState :=
  ⟨[baseUrl], [], [], [], [baseUrl]⟩

/-- The guarded enqueue of `process_url` (lines 224-231): under the lock,
if the normalized URL is in neither `visited` nor `url_frequencies` it is
put on `to_visit` and recorded in `url_frequencies`; otherwise nothing
happens. -/
def tryAdmitUrl (s : CrawlState) (u : Str) : CrawlState :=
  if u ∉ s.visited ∧ u ∉ s.freqs then
    { s with pending := s.pending ++ [u], freqs := s.freqs ++ [u],
             admitted := s.admitted ++ [u] }
  else s

/-- `SitemapGenerator.add_url_to_sitemap` (lines 77-117): appends one entry
to the XML document. -/
def addUrlToSitemap (s : CrawlState) (url : Str) : CrawlState :=
  { s with sitemap := s.sitemap ++ [mkEntry url] }

/-- Resolution step of `process_url` (lines 188-189): an href that does not
start with `http://` or `https://` is joined against the page URL. -/
def resolveHref (pageUrl href : Str) : Str :=
  if leadsWith (("http://").toList) href || leadsWith (("https://").toList) href then href
  else urljoin pageUrl href

/-- Link filter and normalizer of `process_url` (lines 179-222): skip empty,
fragment-only, `javascript:` and `mailto:` hrefs; resolve relative hrefs;
keep only hrefs whose host equals the base domain and which either start
with the base URL or contain `/learn/latex/` or `/learn/latex/Articles`;
drop excluded extensions; finally strip params, query and fragment. Returns
the canonical URL handed to the guarded enqueue, or `none` on rejection. -/
def normalizeLink (baseUrl pageUrl href : Str) : Option Str :=
  if href = [] then none
  else if leadsWith (("#").toList) href || leadsWith (("javascript:").toList) href
      || leadsWith (("mailto:").toList) href then none
  else
    let r := resolveHref pageUrl href
    let p := urlparse r
    if p.netloc = (urlparse baseUrl).netloc then
      if !(leadsWith baseUrl r || containsSub (("/learn/latex/").toList) r
          || containsSub (("/learn/latex/Articles").toList) r) then none
      else if hasExcludedExtension p.path then none
      else some (urlunparse p.scheme p.netloc p.path [] [] [])
    else none

/-- Processing of a single anchor href inside the loop of `process_url`
(lines 162-235): normalize and, if accepted, run the guarded enqueue. -/
def processLink (baseUrl pageUrl : Str) (s : CrawlState) (href : Str) : CrawlState :=
  match normalizeLink baseUrl pageUrl href with
  | some n => tryAdmitUrl s n
  | none => s

/-- Outcome of `self.session.get` plus HTML parsing, the external fetch
capability consumed by `process_url`: `failure` is a raised transport
exception, otherwise a status code, a `Content-Type` header and, for a body
BeautifulSoup can parse, the list of anchor href strings it contains
(`none` models a parser exception, lines 151-156). -/
inductive FetchResult where
  | failure
  | ok (status : Nat) (contentType : Str) (body : Option (List Str))

/-- The href strings the extractor yields for a fetch result. -/
def linksOf : FetchResult → List Str
  | .ok _ _ (some links) => links
  | _ => []

/-- `SitemapGenerator.process_url` (lines 121-241) for an already
dispatched `url`: non-200 status, non-HTML content type, transport failure
and parse failure all return with the state unchanged; otherwise the url is
appended to the sitemap and every extracted href runs through the link
filter and the guarded enqueue in document order. -/
def processUrl (fetch : Str → FetchResult) (baseUrl : Str) (s : CrawlState) (url : Str) :
    CrawlState :=
  match fetch url with
  | .failure => s
  | .ok status ct body =>
    if status ≠ 200 then s
    else if !isHtmlContentType ct then s
    else
      match body with
      | none => s
      | some links =>
        links.foldl (fun st href => processLink baseUrl url st href) (addUrlToSitemap s url)

/-- One iteration of the dispatch loop of `generate_sitemap` (lines
287-318) in its sequential, single-worker configuration: `none` when
`to_visit` is empty with no work in flight (the drained state of line 314,
which the code checks only after every submitted future has completed); a
popped URL already in `visited` is dropped (line 297); otherwise the URL is
added to `visited` (line 305) and processed, and the step reports it as
dispatched. -/
def crawlStep (fetch : Str → FetchResult) (baseUrl : Str) (s : CrawlState) :
    Option (Option Str × CrawlState) :=
  match s.pending with
  | [] => none
  | u :: rest =>
    if u ∈ s.visited then some (none, { s with pending := rest })
    else some (some u,
      processUrl fetch baseUrl { s with pending := rest, visited := s.visited ++ [u] } u)

/-- The dispatch loop of `generate_sitemap`, iterated up to `fuel` times.
Returns the final state and the list of URLs dispatched to `process_url`,
in dispatch order. -/
def crawl (fetch : Str → FetchResult) (baseUrl : Str) : Nat → CrawlState → CrawlState × List Str
  | 0, s => (s, [])
  | n + 1, s =>
    match crawlStep fetch baseUrl s with
    | none => (s, [])
    | some (d, s') =>
      let r := crawl fetch baseUrl n s'
      (r.1, d.toList ++ r.2)

/-- One loop iteration as a relation, for stating invariants. -/
def Step (fetch : Str → FetchResult) (baseUrl : Str) (s s' : CrawlState) : Prop :=
  ∃ d, crawlStep fetch baseUrl s = some (d, s')

/-- States reachable from a given state by loop iterations. -/
def Reachable (fetch : Str → FetchResult) (baseUrl : Str) : CrawlState → CrawlState → Prop :=
  Relation.ReflTransGen (Step fetch baseUrl)

/-- The three termination paths of `generate_sitemap` (lines 276-335). -/
inductive RunOutcome where
  | normal
  | interrupted
  | errored
  deriving DecidableEq

/-- What `generate_sitemap` does with the state it reached, on each
termination path (lines 320-335): on normal completion (320-325) and on
`KeyboardInterrupt` (326-332) the accumulated entry list is rendered and
written to `sitemap.xml` and `len(self.visited)` is returned; on any other
exception (333-335) nothing is written and 0 is returned. The first
component is the persisted document: `some` entry list when a document is
written, `none` when none is. -/
def finishRun (s : CrawlState) : RunOutcome → Option (List SitemapEntry) × Nat
  | .normal => (some s.sitemap, s.visited.length)
  | .interrupted => (some s.sitemap, s.visited.length)
  | .errored => (none, 0)

/-- The count `generate_sitemap` returns on the normal path (line 325):
`len(self.visited)` after the loop drains. -/
def runCount (fetch : Str → FetchResult) (baseUrl : Str) (fuel : Nat) : Nat :=
  ((crawl fetch baseUrl fuel (initState baseUrl)).1).visited.length

/-! Basic preservation lemmas about the state operations. -/

theorem tryAdmit_visited (s : CrawlState) (u : Str) : (tryAdmitUrl s u).visited = s.visited := by
  unfold tryAdmitUrl; split <;> rfl

theorem tryAdmit_sitemap (s : CrawlState) (u : Str) : (tryAdmitUrl s u).sitemap = s.sitemap := by
  unfold tryAdmitUrl; split <;> rfl

theorem processLink_visited (b p : Str) (s : CrawlState) (href : Str) :
    (processLink b p s href).visited = s.visited := by
  unfold processLink
  cases normalizeLink b p href with
  | some n => exact tryAdmit_visited s n
  | none => rfl

theorem processLink_sitemap (b p : Str) (s : CrawlState) (href : Str) :
    (processLink b p s href).sitemap = s.sitemap := by
  unfold processLink
  cases normalizeLink b p href with
  | some n => exact tryAdmit_sitemap s n
  | none => rfl

theorem foldl_processLink_visited (b p : Str) (links : List Str) (s : CrawlState) :
    (links.foldl (fun st href => processLink b p st href) s).visited = s.visited := by
  induction links generalizing s with
  | nil => rfl
  | cons h t ih => rw [List.foldl_cons, ih, processLink_visited]

theorem foldl_processLink_sitemap (b p : Str) (links : List Str) (s : CrawlState) :
    (links.foldl (fun st href => processLink b p st href) s).sitemap = s.sitemap := by
  induction links generalizing s with
  | nil => rfl
  | cons h t ih => rw [List.foldl_cons, ih, processLink_sitemap]

theorem processUrl_visited (fetch : Str → FetchResult) (b : Str) (s : CrawlState) (u : Str) :
    (processUrl fetch b s u).visited = s.visited := by
  unfold processUrl
  cases fetch u with
  | failure => rfl
  | ok status ct body =>
    dsimp only
    split
    · rfl
    · split
      · rfl
      · cases body with
        | none => rfl
        | some links => rw [foldl_processLink_visited]; rfl

theorem processUrl_sitemap (fetch : Str → FetchResult) (b : Str) (s : CrawlState) (u : Str) :
    (processUrl fetch b s u).sitemap = s.sitemap ∨
    (processUrl fetch b s u).sitemap = s.sitemap ++ [mkEntry u] := by
  unfold processUrl
  cases fetch u with
  | failure => exact Or.inl rfl
  | ok status ct body =>
    dsimp only
    split
    · exact Or.inl rfl
    · split
      · exact Or.inl rfl
      · cases body with
        | none => exact Or.inl rfl
        | some links => right; rw [foldl_processLink_sitemap]; rfl

/-! Lemmas about a single loop iteration. -/

theorem crawlStep_visited (fetch : Str → FetchResult) (b : Str) {s s' : CrawlState}
    {d : Option Str} (h : crawlStep fetch b s = some (d, s')) :
    s'.visited = s.visited ++ d.toList := by
  cases hp : s.pending with
  | nil => simp [crawlStep, hp] at h
  | cons u rest =>
    simp only [crawlStep, hp] at h
    by_cases hv : u ∈ s.visited
    · rw [if_pos hv] at h
      simp only [Option.some.injEq, Prod.mk.injEq] at h
      obtain ⟨h1, h2⟩ := h
      subst h1; subst h2; simp
    · rw [if_neg hv] at h
      simp only [Option.some.injEq, Prod.mk.injEq] at h
      obtain ⟨h1, h2⟩ := h
      subst h1; subst h2
      rw [processUrl_visited]; simp

theorem crawlStep_dispatch (fetch : Str → FetchResult) (b : Str) {s s' : CrawlState}
    {u : Str} (h : crawlStep fetch b s = some (some u, s')) : u ∉ s.visited := by
  cases hp : s.pending with
  | nil => simp [crawlStep, hp] at h
  | cons v rest =>
    simp only [crawlStep, hp] at h
    by_cases hv : v ∈ s.visited
    · rw [if_pos hv] at h; simp at h
    · rw [if_neg hv] at h
      simp only [Option.some.injEq, Prod.mk.injEq] at h
      obtain ⟨h1, _⟩ := h
      cases h1; exact hv

/-! Lemmas about the whole loop. -/

theorem crawl_visited (fetch : Str → FetchResult) (b : Str) :
    ∀ (n : Nat) (s : CrawlState),
      (crawl fetch b n s).1.visited = s.visited ++ (crawl fetch b n s).2 := by
  intro n
  induction n with
  | zero => intro s; simp [crawl]
  | succ m ih =>
    intro s
    cases h : crawlStep fetch b s with
    | none => simp [crawl, h]
    | some r =>
      obtain ⟨d, s'⟩ := r
      have hv := crawlStep_visited fetch b h
      simp only [crawl, h]
      rw [ih s', hv, List.append_assoc]

theorem crawl_trace_fresh (fetch : Str → FetchResult) (b : Str) :
    ∀ (n : Nat) (s : CrawlState) (x : Str), x ∈ (crawl fetch b n s).2 → x ∉ s.visited := by
  intro n
  induction n with
  | zero => intro s x hx; simp [crawl] at hx
  | succ m ih =>
    intro s x hx
    cases h : crawlStep fetch b s with
    | none => rw [crawl, h] at hx; simp at hx
    | some r =>
      obtain ⟨d, s'⟩ := r
      rw [crawl, h] at hx
      simp only [List.mem_append] at hx
      rcases hx with hx | hx
      · cases d with
        | none => simp at hx
        | some u =>
          simp at hx
          subst hx
          exact crawlStep_dispatch fetch b h
      · have := ih s' x hx
        have hv := crawlStep_visited fetch b h
        intro hmem
        exact this (hv ▸ List.mem_append_left _ hmem)

theorem crawl_trace_nodup (fetch : Str → FetchResult) (b : Str) :
    ∀ (n : Nat) (s : CrawlState), (crawl fetch b n s).2.Nodup := by
  intro n
  induction n with
  | zero => intro s; simp [crawl]
  | succ m ih =>
    intro s
    cases h : crawlStep fetch b s with
    | none => simp [crawl, h]
    | some r =>
      obtain ⟨d, s'⟩ := r
      rw [crawl, h]
      cases d with
      | none => simpa using ih s'
      | some u =>
        simp only [Option.toList_some, List.singleton_append, List.nodup_cons]
        refine ⟨fun hmem => ?_, ih s'⟩
        have := crawl_trace_fresh fetch b m s' u hmem
        have hv := crawlStep_visited fetch b h
        exact this (hv ▸ List.mem_append_right _ (by simp))

theorem crawl_sitemap (fetch : Str → FetchResult) (b : Str) :
    ∀ (n : Nat) (s : CrawlState),
      ∃ t, (crawl fetch b n s).1.sitemap = s.sitemap ++ t ∧
        t.length ≤ (crawl fetch b n s).2.length := by
  intro n
  induction n with
  | zero => intro s; exact ⟨[], by simp [crawl]⟩
  | succ m ih =>
    intro s
    cases h : crawlStep fetch b s with
    | none => exact ⟨[], by simp [crawl, h]⟩
    | some r =>
      obtain ⟨d, s'⟩ := r
      have hstep : ∃ t0, s'.sitemap = s.sitemap ++ t0 ∧ t0.length ≤ d.toList.length := by
        cases hp : s.pending with
        | nil => simp [crawlStep, hp] at h
        | cons u rest =>
          simp only [crawlStep, hp] at h
          by_cases hv : u ∈ s.visited
          · rw [if_pos hv] at h
            simp only [Option.some.injEq, Prod.mk.injEq] at h
            obtain ⟨h1, h2⟩ := h
            subst h1; subst h2
            exact ⟨[], by simp⟩
          · rw [if_neg hv] at h
            simp only [Option.some.injEq, Prod.mk.injEq] at h
            obtain ⟨h1, h2⟩ := h
            subst h1; subst h2
            rcases processUrl_sitemap fetch b
                { s with pending := rest, visited := s.visited ++ [u] } u with hcase | hcase
            · exact ⟨[], by simp [hcase]⟩
            · exact ⟨[mkEntry u], by simp [hcase]⟩
      obtain ⟨t0, ht0, hlen0⟩ := hstep
      obtain ⟨t1, ht1, hlen1⟩ := ih s'
      refine ⟨t0 ++ t1, ?_, ?_⟩
      · rw [crawl, h]; dsimp only; rw [ht1, ht0, List.append_assoc]
      · rw [crawl, h]; dsimp only
        simp only [List.length_append]
        omega

theorem crawl_sitemap_mono (fetch : Str → FetchResult) (b : Str) (n : Nat) (s : CrawlState)
    {e : SitemapEntry} (he : e ∈ s.sitemap) : e ∈ (crawl fetch b n s).1.sitemap := by
  obtain ⟨t, ht, _⟩ := crawl_sitemap fetch b n s
  rw [ht]
  exact List.mem_append_left _ he

/-! Concrete values used by witnesses and counterexamples. -/

/-- A sample base URL. -/
def exDocsUrl : Str := ("https://example.com/docs").toList

/-- A same-host URL outside the base-URL prefix that matches the
`/learn/latex/` allowance. -/
def exLatexUrl : Str := ("https://example.com/learn/latex/intro").toList

/-- A fetch capability that answers every URL with a `404` HTML page. -/
def exSkipFetch : Str → FetchResult := fun _ => .ok 404 (("text/html").toList) (some [])

/-- A state that has accumulated one sitemap entry. -/
def exEntryState : CrawlState :=
  ⟨[], [exDocsUrl], [], [mkEntry exDocsUrl], [exDocsUrl]⟩

/-- C2: admission is idempotent. The guarded enqueue of `process_url`
(lines 224-231) inserts a canonical URL into the pending queue at most
once: a first attempt on a URL that is in neither tracking set appends it
to the queue and records it, and a second attempt with the same URL leaves
the state exactly unchanged. -/
theorem C2_tryAdmit_idempotent (s : CrawlState) (u : Str) :
    tryAdmitUrl (tryAdmitUrl s u) u = tryAdmitUrl s u ∧
    (u ∉ s.visited → u ∉ s.freqs →
      (tryAdmitUrl s u).pending = s.pending ++ [u] ∧ u ∈ (tryAdmitUrl s u).freqs ∧
        u ∈ (tryAdmitUrl s u).admitted) := by
  constructor
  · by_cases h : u ∉ s.visited ∧ u ∉ s.freqs <;> simp [tryAdmitUrl, h]
  · intro h1 h2
    simp [tryAdmitUrl, h1, h2]

/-- Witness for C2 at a concrete state. -/
theorem C2_tryAdmit_idempotent_witness :
    exDocsUrl ∉ (initState exLatexUrl).visited ∧ exDocsUrl ∉ (initState exLatexUrl).freqs ∧
    tryAdmitUrl (tryAdmitUrl (initState exLatexUrl) exDocsUrl) exDocsUrl =
      tryAdmitUrl (initState exLatexUrl) exDocsUrl ∧
    (tryAdmitUrl (initState exLatexUrl) exDocsUrl).pending =
      (initState exLatexUrl).pending ++ [exDocsUrl] ∧
    exDocsUrl ∈ (tryAdmitUrl (initState exLatexUrl) exDocsUrl).freqs ∧
    exDocsUrl ∈ (tryAdmitUrl (initState exLatexUrl) exDocsUrl).admitted := by
  have h := C2_tryAdmit_idempotent (initState exLatexUrl) exDocsUrl
  have h2 := h.2 (by decide) (by decide)
  exact ⟨by decide, by decide, h.1, h2.1, h2.2.1, h2.2.2⟩

/-- C5: non-200 status or non-HTML content type is a skip, not an error.
If the fetch of a dispatched URL returns such a result, `process_url`
leaves the whole state unchanged (no sitemap entry, no extracted links, no
new pending work); the dispatching iteration still marks the URL visited
(complete), and no later iteration ever dispatches it again. -/
theorem C5_skip_not_error (fetch : Str → FetchResult) (b : Str) (s : CrawlState)
    (u : Str) (rest : List Str) (status : Nat) (ct : Str) (body : Option (List Str))
    (hf : fetch u = .ok status ct body)
    (hskip : status ≠ 200 ∨ isHtmlContentType ct = false)
    (hp : s.pending = u :: rest) (hv : u ∉ s.visited) :
    processUrl fetch b s u = s ∧
    crawlStep fetch b s =
      some (some u, { s with pending := rest, visited := s.visited ++ [u] }) ∧
    ∀ fuel, u ∉ (crawl fetch b fuel { s with pending := rest, visited := s.visited ++ [u] }).2 := by
  have hskip' : ∀ st : CrawlState, processUrl fetch b st u = st := by
    intro st
    simp only [processUrl, hf]
    rcases hskip with h | h
    · rw [if_pos h]
    · by_cases h200 : status ≠ 200
      · rw [if_pos h200]
      · rw [if_neg h200, if_pos (by simp [h])]
  refine ⟨hskip' s, ?_, ?_⟩
  · simp only [crawlStep, hp]
    rw [if_neg hv, hskip']
  · intro fuel hmem
    exact crawl_trace_fresh fetch b fuel _ u hmem (by simp)

/-- Witness for C5: a 404 answer on the seeded base URL. -/
theorem C5_skip_not_error_witness :
    processUrl exSkipFetch exDocsUrl (initState exDocsUrl) exDocsUrl = initState exDocsUrl ∧
    crawlStep exSkipFetch exDocsUrl (initState exDocsUrl) =
      some (some exDocsUrl,
        { initState exDocsUrl with
            pending := []
            visited := (initState exDocsUrl).visited ++ [exDocsUrl] }) ∧
    exDocsUrl ∉ (crawl exSkipFetch exDocsUrl 5
      { initState exDocsUrl with
          pending := []
          visited := (initState exDocsUrl).visited ++ [exDocsUrl] }).2 := by
  obtain ⟨h1, h2, h3⟩ := C5_skip_not_error exSkipFetch exDocsUrl (initState exDocsUrl)
    exDocsUrl [] 404 (("text/html").toList) (some []) rfl (Or.inl (by decide)) rfl (by decide)
  exact ⟨h1, h2, h3 5⟩

/-- C6 counterexample: a session holding one accumulated sitemap entry.
On the unrecoverable-error path (lines 333-335 of `generate_sitemap`)
nothing is persisted, while the normal path persists the entry list — so
the three termination paths do not all produce the persisted document. -/
theorem C6_error_path_counterexample :
    (finishRun exEntryState .errored).1 = none ∧
    exEntryState.sitemap ≠ [] ∧
    (finishRun exEntryState .normal).1 = some exEntryState.sitemap := by
  exact ⟨rfl, by simp [exEntryState], rfl⟩

/-- C6 amended: the entry list accumulated so far is rendered and persisted
on normal completion and on the interruption signal, with the same document
contract in these two cases; on an unrecoverable error the run persists
nothing and returns 0. -/
theorem C6_amended_persistence (s : CrawlState) :
    finishRun s .normal = (some s.sitemap, s.visited.length) ∧
    finishRun s .interrupted = finishRun s .normal ∧
    finishRun s .errored = (none, 0) :=
  ⟨rfl, rfl, rfl⟩

/-- C7 counterexample: with a fetch that answers 404 on the base URL, the
crawl dispatches one URL, produces no sitemap entry, and the generator
still returns 1 — the returned count is not the number of successfully
processed URLs. -/
theorem C7_count_counterexample :
    runCount exSkipFetch exDocsUrl 2 = 1 ∧
    (crawl exSkipFetch exDocsUrl 2 (initState exDocsUrl)).1.sitemap.length = 0 ∧
    runCount exSkipFetch exDocsUrl 2 ≠
      (crawl exSkipFetch exDocsUrl 2 (initState exDocsUrl)).1.sitemap.length := by
  exact ⟨by decide, by decide, by decide⟩

/-- C7 amended: the count `generate_sitemap` returns is the number of
distinct URLs dispatched (the final size of `visited`), an upper bound on
— and in general different from — the number of URLs that were processed
successfully and produced a sitemap entry. -/
theorem C7_amended_count (fetch : Str → FetchResult) (b : Str) (fuel : Nat) :
    runCount fetch b fuel = (crawl fetch b fuel (initState b)).2.length ∧
    (crawl fetch b fuel (initState b)).1.sitemap.length ≤
      (crawl fetch b fuel (initState b)).2.length ∧
    (crawl fetch b fuel (initState b)).2.Nodup := by
  refine ⟨?_, ?_, crawl_trace_nodup fetch b fuel _⟩
  · unfold runCount
    rw [crawl_visited]
    simp [initState]
  · obtain ⟨t, ht, hlen⟩ := crawl_sitemap fetch b fuel (initState b)
    rw [ht]
    simpa [initState] using hlen

/-- C8: the depth of a URL added to the sitemap is the number of non-empty
`/`-separated segments of its parsed path (the `path == "/"` special case
of line 83 agrees with that count), and the changefreq/priority of the
entry are exactly the table values daily/1.0, weekly/0.8, monthly/0.6 and
monthly/0.4 for depths 0, 1, 2 and at least 3. -/
theorem C8_depth_and_table :
    (∀ url : Str,
      urlDepth url =
        ((splitChar '/' (urlparse url).path).filter (fun p => p ≠ [])).length ∧
      mkEntry url = ⟨url, (getFrequencyPriority (urlDepth url)).1,
        (getFrequencyPriority (urlDepth url)).2⟩) ∧
    getFrequencyPriority 0 = ("daily", "1.0") ∧
    getFrequencyPriority 1 = ("weekly", "0.8") ∧
    getFrequencyPriority 2 = ("monthly", "0.6") ∧
    ∀ d : Nat, 3 ≤ d → getFrequencyPriority d = ("monthly", "0.4") := by
  refine ⟨fun url => ⟨?_, rfl⟩, rfl, rfl, rfl, fun d hd => ?_⟩
  · simp only [urlDepth]
    by_cases hp : (urlparse url).path = ['/']
    · rw [hp]; decide
    · rw [if_pos hp]
  · unfold getFrequencyPriority
    rw [if_neg (by omega), if_neg (by omega), if_neg (by omega)]

/-- Witness for C8 at depth 5 and at a concrete depth-3 URL. -/
theorem C8_depth_and_table_witness :
    3 ≤ 5 ∧ getFrequencyPriority 5 = ("monthly", "0.4") ∧
    urlDepth (("https://example.com/learn/latex/Articles").toList) =
      ((splitChar '/' (urlparse (("https://example.com/learn/latex/Articles").toList)).path).filter
        (fun p => p ≠ [])).length :=
  ⟨by decide, C8_depth_and_table.2.2.2.2 5 (by decide),
   (C8_depth_and_table.1 (("https://example.com/learn/latex/Articles").toList)).1⟩

set_option maxHeartbeats 2000000 in
/-- C1 counterexample: with base URL `https://example.com/docs`, the link
`https://example.com/learn/latex/intro` has exactly the base host but does
not start with the base URL prefix — yet the filter of `process_url`
admits it (through the `/learn/latex/` substring allowance of lines
197-199). Admission of same-host links is therefore not decided by the
strict prefix-only policy. -/
theorem C1_strict_policy_counterexample :
    normalizeLink exDocsUrl exDocsUrl exLatexUrl = some exLatexUrl ∧
    (urlparse (resolveHref exDocsUrl exLatexUrl)).netloc = (urlparse exDocsUrl).netloc ∧
    leadsWith exDocsUrl (resolveHref exDocsUrl exLatexUrl) = false := by
  exact ⟨by decide, by decide, by decide⟩

/-- C1 amended: a candidate link is admitted by the filter of `process_url`
only if its resolved URL has exactly the base host and either starts with
the base URL prefix string or contains `/learn/latex/` (or
`/learn/latex/Articles`, which the former subsumes) as a substring, and its
path does not end in an excluded extension; this disjunctive policy is the
one applied to all same-host links. -/
theorem C1_amended_policy (baseUrl pageUrl href c : Str)
    (h : normalizeLink baseUrl pageUrl href = some c) :
    (urlparse (resolveHref pageUrl href)).netloc = (urlparse baseUrl).netloc ∧
    (leadsWith baseUrl (resolveHref pageUrl href) = true ∨
      containsSub (("/learn/latex/").toList) (resolveHref pageUrl href) = true ∨
      containsSub (("/learn/latex/Articles").toList) (resolveHref pageUrl href) = true) ∧
    hasExcludedExtension (urlparse (resolveHref pageUrl href)).path = false := by
  simp only [normalizeLink] at h
  split at h
  · exact absurd h (by simp)
  · split at h
    · exact absurd h (by simp)
    · split at h
      · rename_i hnet
        split at h
        · exact absurd h (by simp)
        · rename_i hpol
          split at h
          · exact absurd h (by simp)
          · rename_i hext
            refine ⟨hnet, ?_, by simpa using hext⟩
            by_cases hb1 : leadsWith baseUrl (resolveHref pageUrl href) = true
            · exact Or.inl hb1
            · by_cases hb2 : containsSub (("/learn/latex/").toList) (resolveHref pageUrl href) = true
              · exact Or.inr (Or.inl hb2)
              · by_cases hb3 :
                    containsSub (("/learn/latex/Articles").toList) (resolveHref pageUrl href) = true
                · exact Or.inr (Or.inr hb3)
                · simp only [Bool.not_eq_true] at hb1 hb2 hb3
                  exact absurd (by rw [hb1, hb2, hb3]; decide) hpol
      · exact absurd h (by simp)

set_option maxHeartbeats 2000000 in
/-- Witness for the amended C1 at the counterexample link. -/
theorem C1_amended_policy_witness :
    (urlparse (resolveHref exDocsUrl exLatexUrl)).netloc = (urlparse exDocsUrl).netloc ∧
    (leadsWith exDocsUrl (resolveHref exDocsUrl exLatexUrl) = true ∨
      containsSub (("/learn/latex/").toList) (resolveHref exDocsUrl exLatexUrl) = true ∨
      containsSub (("/learn/latex/Articles").toList) (resolveHref exDocsUrl exLatexUrl) = true) ∧
    hasExcludedExtension (urlparse (resolveHref exDocsUrl exLatexUrl)).path = false :=
  C1_amended_policy exDocsUrl exDocsUrl exLatexUrl exLatexUrl (by decide)

/-! Structural lemmas about the URL parser, used to characterize the
canonical form a normalized link takes. -/

theorem splitFirstL_cons_self (c : Char) (xs : Str) : splitFirstL c (c :: xs) = ([], some xs) := by
  simp [splitFirstL]

theorem splitFirstL_cons_ne (c x : Char) (xs : Str) (h : x ≠ c) :
    splitFirstL c (x :: xs) = (x :: (splitFirstL c xs).1, (splitFirstL c xs).2) := by
  simp [splitFirstL, h]

theorem splitFirstL_append (c : Char) :
    ∀ (l a bs : Str), splitFirstL c l = (a, some bs) → l = a ++ c :: bs := by
  intro l
  induction l with
  | nil => intro a bs h; simp [splitFirstL] at h
  | cons x xs ih =>
    intro a bs h
    by_cases hx : x = c
    · subst hx
      rw [splitFirstL_cons_self] at h
      simp only [Prod.mk.injEq, Option.some.injEq] at h
      obtain ⟨h1, h2⟩ := h
      subst h1; subst h2
      rfl
    · rw [splitFirstL_cons_ne c x xs hx] at h
      simp only [Prod.mk.injEq] at h
      obtain ⟨h1, h2⟩ := h
      have hx2 : splitFirstL c xs = ((splitFirstL c xs).1, some bs) := by
        rw [← h2]
      have := ih _ _ hx2
      rw [← h1, List.cons_append, ← this]

theorem splitLastL_append (c : Char) (l a bs : Str) (h : splitLastL c l = some (a, bs)) :
    l = a ++ c :: bs := by
  unfold splitLastL at h
  cases hr : splitFirstL c l.reverse with
  | mk fst snd =>
    rw [hr] at h
    cases snd with
    | none => simp at h
    | some rb =>
      simp only [Option.some.injEq, Prod.mk.injEq] at h
      obtain ⟨h1, h2⟩ := h
      have hdec := splitFirstL_append c l.reverse fst rb hr
      calc l = l.reverse.reverse := (List.reverse_reverse l).symm
        _ = (fst ++ c :: rb).reverse := by rw [hdec]
        _ = (c :: rb).reverse ++ fst.reverse := by rw [List.reverse_append]
        _ = rb.reverse ++ [c] ++ fst.reverse := by rw [List.reverse_cons]
        _ = a ++ c :: bs := by rw [h1, h2, List.append_assoc]; rfl

theorem dropWhile_head_not (p : Char → Bool) :
    ∀ l : Str, l.dropWhile p = [] ∨ ∃ x xs, l.dropWhile p = x :: xs ∧ p x = false := by
  intro l
  induction l with
  | nil => exact Or.inl rfl
  | cons a as ih =>
    by_cases hp : p a = true
    · rw [List.dropWhile_cons, if_pos hp]
      exact ih
    · refine Or.inr ⟨a, as, ?_, by simpa using hp⟩
      rw [List.dropWhile_cons, if_neg hp]

theorem splitNetloc_tail_shape (m : Str) (h : (splitNetloc m).1 ≠ []) :
    (splitNetloc m).2 = [] ∨
    ∃ x xs, (splitNetloc m).2 = x :: xs ∧ isNetlocEnd x = true := by
  unfold splitNetloc at h ⊢
  by_cases hc : m.take 2 = ['/', '/']
  · rw [if_pos hc]
    rcases dropWhile_head_not (fun c => !isNetlocEnd c) (m.drop 2) with h2 | ⟨x, xs, hx, hpx⟩
    · exact Or.inl h2
    · refine Or.inr ⟨x, xs, hx, ?_⟩
      simpa using hpx
  · rw [if_neg hc] at h
    exact absurd rfl h

theorem pathRaw_shape (r2 : Str)
    (h : r2 = [] ∨ ∃ x xs, r2 = x :: xs ∧ isNetlocEnd x = true) :
    (splitFirstL '?' (splitFirstL '#' r2).1).1 = [] ∨
    ∃ t, (splitFirstL '?' (splitFirstL '#' r2).1).1 = '/' :: t := by
  rcases h with h | ⟨x, xs, hx, hend⟩
  · subst h
    exact Or.inl rfl
  · subst hx
    have hx3 : x = '/' ∨ x = '?' ∨ x = '#' := by
      simp only [isNetlocEnd, Bool.or_eq_true, beq_iff_eq] at hend
      tauto
    rcases hx3 with rfl | rfl | rfl
    · rw [splitFirstL_cons_ne '#' '/' xs (by decide)]
      rw [splitFirstL_cons_ne '?' '/' _ (by decide)]
      exact Or.inr ⟨_, rfl⟩
    · rw [splitFirstL_cons_ne '#' '?' xs (by decide)]
      rw [splitFirstL_cons_self '?']
      exact Or.inl rfl
    · rw [splitFirstL_cons_self '#']
      exact Or.inl rfl

theorem paramsStep_shape (pr : Str) (h : pr = [] ∨ ∃ t, pr = '/' :: t) :
    (if ';' ∈ pr then splitParams pr else (pr, [])).1 = [] ∨
    ∃ t2, (if ';' ∈ pr then splitParams pr else (pr, [])).1 = '/' :: t2 := by
  rcases h with h | ⟨t, ht⟩
  · subst h
    rw [if_neg (by simp)]
    exact Or.inl rfl
  · subst ht
    by_cases hs : ';' ∈ '/' :: t
    · rw [if_pos hs]
      cases hl : splitLastL '/' ('/' :: t) with
      | none =>
        cases hq : splitFirstL ';' ('/' :: t) with
        | mk a1 a2 =>
          cases a2 with
          | none =>
            simp only [splitParams, hl, hq]
            exact Or.inr ⟨t, rfl⟩
          | some a2' =>
            have ha1 : a1 = '/' :: (splitFirstL ';' t).1 := by
              rw [splitFirstL_cons_ne ';' '/' t (by decide)] at hq
              simp only [Prod.mk.injEq] at hq
              exact hq.1.symm
            simp only [splitParams, hl, hq, ha1]
            exact Or.inr ⟨_, rfl⟩
      | some pq =>
        obtain ⟨bef, aft⟩ := pq
        have hdec := splitLastL_append '/' ('/' :: t) bef aft hl
        cases hq : splitFirstL ';' aft with
        | mk a1 a2 =>
          cases a2 with
          | none =>
            simp only [splitParams, hl, hq]
            exact Or.inr ⟨t, rfl⟩
          | some a2' =>
            simp only [splitParams, hl, hq]
            cases bef with
            | nil => exact Or.inr ⟨_, rfl⟩
            | cons b0 bs =>
              have hb0 : b0 = '/' := by
                simp only [List.cons_append] at hdec
                exact ((List.cons.injEq .. ▸ hdec).1).symm
              subst hb0
              exact Or.inr ⟨_, rfl⟩
    · rw [if_neg hs]
      exact Or.inr ⟨t, rfl⟩

theorem urlparse_path_shape (l : Str) (h : (urlparse l).netloc ≠ []) :
    (urlparse l).path = [] ∨ ∃ t, (urlparse l).path = '/' :: t := by
  simp only [urlparse, urlparseWith] at h ⊢
  exact paramsStep_shape _ (pathRaw_shape _ (splitNetloc_tail_shape _ h))

theorem urlunparse_canonical (scheme netloc path : Str) (hn : netloc ≠ [])
    (hs : scheme ≠ []) (hp : path = [] ∨ ∃ t, path = '/' :: t) :
    urlunparse scheme netloc path [] [] [] =
      scheme ++ ':' :: '/' :: '/' :: (netloc ++ path) := by
  rcases hp with rfl | ⟨t, rfl⟩
  · simp [urlunparse, hn, hs]
  · simp [urlunparse, hn, hs]

/-- C9: every canonical URL produced by the normalizer is exactly the
scheme, host and path of the resolved URL — query, params and fragment are
discarded, the path is kept verbatim as parsed (in particular a path of
exactly `/` stays `/`). Stated for base URLs with a host and resolved URLs
with a scheme, which the admission filter guarantees in the crawl. -/
theorem C9_canonical_form (baseUrl pageUrl href c : Str)
    (hb : (urlparse baseUrl).netloc ≠ [])
    (hs : (urlparse (resolveHref pageUrl href)).scheme ≠ [])
    (h : normalizeLink baseUrl pageUrl href = some c) :
    c = (urlparse (resolveHref pageUrl href)).scheme ++ ':' :: '/' :: '/' ::
        ((urlparse (resolveHref pageUrl href)).netloc ++
          (urlparse (resolveHref pageUrl href)).path) := by
  simp only [normalizeLink] at h
  split at h
  · exact absurd h (by simp)
  · split at h
    · exact absurd h (by simp)
    · split at h
      · rename_i hnet
        split at h
        · exact absurd h (by simp)
        · split at h
          · exact absurd h (by simp)
          · have hn : (urlparse (resolveHref pageUrl href)).netloc ≠ [] := by
              rw [hnet]; exact hb
            have hshape := urlparse_path_shape (resolveHref pageUrl href) hn
            simp only [Option.some.injEq] at h
            rw [← h, urlunparse_canonical _ _ _ hn hs hshape]
      · exact absurd h (by simp)

set_option maxHeartbeats 2000000 in
/-- Witness for C9 at a concrete admitted link. -/
theorem C9_canonical_form_witness :
    exLatexUrl = (urlparse (resolveHref exDocsUrl exLatexUrl)).scheme ++ ':' :: '/' :: '/' ::
        ((urlparse (resolveHref exDocsUrl exLatexUrl)).netloc ++
          (urlparse (resolveHref exDocsUrl exLatexUrl)).path) :=
  C9_canonical_form exDocsUrl exDocsUrl exLatexUrl exLatexUrl
    (by decide) (by decide) (by decide)

/-! Frontier invariants: the admitted ghost list is duplicate-free (each
URL is enqueued at most once), visited and pending URLs were all admitted,
and the base URL never enters `url_frequencies`. -/

/-- Core frontier invariant, preserved by every operation. -/
def InvCore (b : Str) (s : CrawlState) : Prop :=
  b ∉ s.freqs ∧
  (∀ a ∈ s.admitted, a ∈ s.visited ∨ a ∈ s.freqs ∨ a = b) ∧
  (∀ p ∈ s.pending, p ∈ s.admitted) ∧
  (∀ v ∈ s.visited, v ∈ s.admitted) ∧
  s.admitted.Nodup

/-- Invariant while a dispatched URL is being processed: the base URL has
already been dispatched, so it is in `visited`. -/
def InvMid (b : Str) (s : CrawlState) : Prop :=
  b ∈ s.visited ∧ InvCore b s

/-- Invariant at the top of the dispatch loop: either the base URL has been
dispatched already or the state is still the constructor state. -/
def InvR (b : Str) (s : CrawlState) : Prop :=
  (b ∈ s.visited ∨ s = initState b) ∧ InvCore b s

theorem tryAdmit_invMid (b : Str) (s : CrawlState) (u : Str) (h : InvMid b s) :
    InvMid b (tryAdmitUrl s u) := by
  obtain ⟨h1, h2, h3, h4, h5, h6⟩ := h
  unfold tryAdmitUrl
  split
  · rename_i hg
    obtain ⟨hgv, hgf⟩ := hg
    have hnotadm : u ∉ s.admitted := by
      intro hu
      rcases h3 u hu with hh | hh | hh
      · exact hgv hh
      · exact hgf hh
      · subst hh; exact hgv h1
    refine ⟨h1, ?_, ?_, ?_, ?_, ?_⟩
    · intro hmem
      rcases List.mem_append.mp hmem with hm | hm
      · exact h2 hm
      · have : b = u := by simpa using hm
        subst this; exact hgv h1
    · intro a ha
      rcases List.mem_append.mp ha with ha | ha
      · rcases h3 a ha with hh | hh | hh
        · exact Or.inl hh
        · exact Or.inr (Or.inl (List.mem_append_left _ hh))
        · exact Or.inr (Or.inr hh)
      · have : a = u := by simpa using ha
        subst this
        exact Or.inr (Or.inl (List.mem_append_right _ (by simp)))
    · intro p hp
      rcases List.mem_append.mp hp with hp | hp
      · exact List.mem_append_left _ (h4 p hp)
      · exact List.mem_append_right _ hp
    · intro v hv
      exact List.mem_append_left _ (h5 v hv)
    · refine h6.append (List.nodup_singleton u) ?_
      intro a ha hb
      rw [List.mem_singleton] at hb
      subst hb
      exact hnotadm ha
  · exact ⟨h1, h2, h3, h4, h5, h6⟩

theorem addUrlToSitemap_invMid (b : Str) (s : CrawlState) (url : Str) (h : InvMid b s) :
    InvMid b (addUrlToSitemap s url) := h

theorem processLink_invMid (b bU pU : Str) (s : CrawlState) (href : Str) (h : InvMid b s) :
    InvMid b (processLink bU pU s href) := by
  unfold processLink
  cases normalizeLink bU pU href with
  | some n => exact tryAdmit_invMid b s n h
  | none => exact h

theorem foldl_processLink_invMid (b bU pU : Str) (links : List Str) (s : CrawlState)
    (h : InvMid b s) :
    InvMid b (links.foldl (fun st href => processLink bU pU st href) s) := by
  induction links generalizing s with
  | nil => exact h
  | cons x xs ih => exact ih _ (processLink_invMid b bU pU s x h)

theorem processUrl_invMid (fetch : Str → FetchResult) (b bU : Str) (s : CrawlState) (u : Str)
    (h : InvMid b s) : InvMid b (processUrl fetch bU s u) := by
  unfold processUrl
  cases fetch u with
  | failure => exact h
  | ok status ct body =>
    dsimp only
    split
    · exact h
    · split
      · exact h
      · cases body with
        | none => exact h
        | some links =>
          exact foldl_processLink_invMid b bU u links _
            (addUrlToSitemap_invMid b s u h)

theorem invR_init (b : Str) : InvR b (initState b) := by
  refine ⟨Or.inr rfl, ?_, ?_, ?_, ?_, ?_⟩
  · simp [initState]
  · intro a ha
    simp only [initState, List.mem_singleton] at ha
    exact Or.inr (Or.inr ha)
  · intro p hp
    simpa [initState] using hp
  · intro v hv
    simp [initState] at hv
  · simp [initState]

theorem crawlStep_invR (fetch : Str → FetchResult) (b : Str) {s s' : CrawlState}
    {d : Option Str} (h : InvR b s) (hs : crawlStep fetch b s = some (d, s')) : InvR b s' := by
  obtain ⟨h0, h2, h3, h4, h5, h6⟩ := h
  cases hp : s.pending with
  | nil => simp [crawlStep, hp] at hs
  | cons u rest =>
    simp only [crawlStep, hp] at hs
    by_cases hv : u ∈ s.visited
    · rw [if_pos hv] at hs
      simp only [Option.some.injEq, Prod.mk.injEq] at hs
      obtain ⟨hs1, hs2⟩ := hs
      subst hs2
      have hb : b ∈ s.visited := by
        rcases h0 with hh | hh
        · exact hh
        · rw [hh] at hv
          simp [initState] at hv
      exact ⟨Or.inl hb, h2, h3, fun p hpr => h4 p (hp ▸ List.mem_cons_of_mem _ hpr), h5, h6⟩
    · rw [if_neg hv] at hs
      simp only [Option.some.injEq, Prod.mk.injEq] at hs
      obtain ⟨hs1, hs2⟩ := hs
      subst hs2
      have hmid : InvMid b { s with pending := rest, visited := s.visited ++ [u] } := by
        have hbv : b ∈ s.visited ++ [u] := by
          rcases h0 with hh | hh
          · exact List.mem_append_left _ hh
          · have : u = b := by
              have := hp
              rw [hh] at this
              simpa [initState] using (List.cons.injEq .. ▸ this.symm).1
            subst this
            exact List.mem_append_right _ (by simp)
        refine ⟨hbv, h2, ?_, ?_, ?_, h6⟩
        · intro a ha
          rcases h3 a ha with hh | hh | hh
          · exact Or.inl (List.mem_append_left _ hh)
          · exact Or.inr (Or.inl hh)
          · exact Or.inr (Or.inr hh)
        · intro p hpr
          exact h4 p (hp ▸ List.mem_cons_of_mem _ hpr)
        · intro v hvm
          rcases List.mem_append.mp hvm with hh | hh
          · exact h5 v hh
          · have : v = u := by simpa using hh
            subst this
            exact h4 v (hp ▸ List.mem_cons_self _ _)
      have := processUrl_invMid fetch b b _ u hmid
      exact ⟨Or.inl this.1, this.2⟩

theorem reachable_invR (fetch : Str → FetchResult) (b : Str) (s : CrawlState)
    (h : Reachable fetch b (initState b) s) : InvR b s := by
  induction h with
  | refl => exact invR_init b
  | tail _ hstep ih =>
    obtain ⟨d, hd⟩ := hstep
    exact crawlStep_invR fetch b ih hd

/-- C4: at every reachable point of a crawl session, every completed
(visited) URL and every pending URL has been admitted, and the admitted
ghost list is duplicate-free — a URL that has ever been admitted is never
inserted into the pending queue a second time. The code marks a URL
completed by inserting it into `visited` at dispatch time, and `admitted`
records every insertion into `to_visit`. -/
theorem C4_frontier_invariant (fetch : Str → FetchResult) (b : Str) (s : CrawlState)
    (h : Reachable fetch b (initState b) s) :
    (∀ v ∈ s.visited, v ∈ s.admitted) ∧
    (∀ p ∈ s.pending, p ∈ s.admitted) ∧
    s.admitted.Nodup := by
  obtain ⟨_, _, _, h4, h5, h6⟩ := reachable_invR fetch b s h
  exact ⟨h5, h4, h6⟩

/-- The state after the first dispatch of `exSkipFetch` from the seed. -/
def exStepState : CrawlState := ⟨[], [exDocsUrl], [], [], [exDocsUrl]⟩

/-- Witness for C4 after one concrete loop iteration. -/
theorem C4_frontier_invariant_witness :
    Reachable exSkipFetch exDocsUrl (initState exDocsUrl) exStepState ∧
    exDocsUrl ∈ exStepState.admitted ∧
    exStepState.admitted.Nodup := by
  have hreach : Reachable exSkipFetch exDocsUrl (initState exDocsUrl) exStepState :=
    Relation.ReflTransGen.single ⟨some exDocsUrl, by decide⟩
  obtain ⟨h1, _, h3⟩ := C4_frontier_invariant exSkipFetch exDocsUrl exStepState hreach
  exact ⟨hreach, h1 exDocsUrl (by decide), h3⟩

/-- C10: the seed base URL bypasses normalization and the dedup set. The
constructor enqueues it exactly as provided; it is never recorded in
`url_frequencies`, the set that guards admission of discovered links; and
when its fetch succeeds as HTML its sitemap entry carries the base URL
verbatim as `<loc>` — including any query string or fragment it contains. -/
theorem C10_seed_bypass (fetch : Str → FetchResult) (b : Str) :
    (initState b).pending = [b] ∧
    (∀ s, Reachable fetch b (initState b) s → b ∉ s.freqs) ∧
    (∀ (ct : Str) (links : List Str) (fuel : Nat),
      fetch b = .ok 200 ct (some links) → isHtmlContentType ct = true →
      (mkEntry b).loc = b ∧
      mkEntry b ∈ (crawl fetch b (fuel + 1) (initState b)).1.sitemap) := by
  refine ⟨rfl, fun s hs => (reachable_invR fetch b s hs).2.1, ?_⟩
  intro ct links fuel hf hct
  refine ⟨rfl, ?_⟩
  have hstep : crawlStep fetch b (initState b) =
      some (some b, processUrl fetch b
        { initState b with pending := [], visited := (initState b).visited ++ [b] } b) := by
    simp [crawlStep, initState]
  have hmem : mkEntry b ∈ (processUrl fetch b
      { initState b with pending := [], visited := (initState b).visited ++ [b] } b).sitemap := by
    simp only [processUrl, hf]
    rw [if_neg (by simp), if_neg (by simp [hct])]
    rw [foldl_processLink_sitemap]
    simp [addUrlToSitemap]
  have hun : (crawl fetch b (fuel + 1) (initState b)).1 =
      (crawl fetch b fuel (processUrl fetch b
        { initState b with pending := [], visited := (initState b).visited ++ [b] } b)).1 := by
    simp only [crawl, hstep]
  rw [hun]
  exact crawl_sitemap_mono fetch b fuel _ hmem

/-- A base URL carrying a query string and a fragment. -/
def exQueryUrl : Str := ("https://example.com/docs?x=1#f").toList

/-- A fetch capability that answers every URL with an empty HTML page. -/
def exHtmlFetch : Str → FetchResult := fun _ => .ok 200 (("text/html").toList) (some [])

/-- Witness for C10: the seeded URL keeps its query and fragment in its
sitemap entry. -/
theorem C10_seed_bypass_witness :
    (initState exQueryUrl).pending = [exQueryUrl] ∧
    exQueryUrl ∉ (initState exQueryUrl).freqs ∧
    (mkEntry exQueryUrl).loc = exQueryUrl ∧
    mkEntry exQueryUrl ∈ (crawl exHtmlFetch exQueryUrl 1 (initState exQueryUrl)).1.sitemap := by
  obtain ⟨h1, h2, h3⟩ := C10_seed_bypass exHtmlFetch exQueryUrl
  obtain ⟨h31, h32⟩ := h3 (("text/html").toList) [] 0 rfl (by decide)
  exact ⟨h1, h2 _ Relation.ReflTransGen.refl, h31, h32⟩

/-! Termination of the dispatch loop. The potential of a state is the
length of the pending queue plus the number of in-scope URLs not yet
recorded in `url_frequencies`; every loop iteration strictly decreases it,
because each enqueue is matched by a fresh `url_frequencies` record. -/

/-- Termination potential over a finite URL universe `U`. -/
def phi (U : List Str) (s : CrawlState) : Nat :=
  s.pending.length + (U.toFinset \ s.freqs.toFinset).card

/-- All pending URLs are the base URL or in-universe, and all recorded
URLs are in-universe. -/
def InScope (b : Str) (U : List Str) (s : CrawlState) : Prop :=
  (∀ p ∈ s.pending, p = b ∨ p ∈ U) ∧ (∀ q ∈ s.freqs, q ∈ U)

/-- The finite universe `U` is closed under link discovery: every link a
fetched in-scope page yields, once normalized and admitted by the filter,
lies in `U`. -/
def admissionClosed (fetch : Str → FetchResult) (b : Str) (U : List Str) : Bool :=
  (b :: U).all fun u =>
    (linksOf (fetch u)).all fun href =>
      match normalizeLink b u href with
      | some c => decide (c ∈ U)
      | none => true

theorem admissionClosed_spec {fetch : Str → FetchResult} {b : Str} {U : List Str}
    (h : admissionClosed fetch b U = true) :
    ∀ u, (u = b ∨ u ∈ U) → ∀ href ∈ linksOf (fetch u), ∀ c,
      normalizeLink b u href = some c → c ∈ U := by
  intro u hu href hhref c hc
  have h1 := List.all_eq_true.mp h u (by
    rcases hu with rfl | hu
    · exact List.mem_cons_self _ _
    · exact List.mem_cons_of_mem _ hu)
  have h2 := List.all_eq_true.mp h1 href hhref
  rw [hc] at h2
  exact of_decide_eq_true h2

theorem tryAdmit_scope_phi (b : Str) (U : List Str) (s : CrawlState) (c : Str)
    (hc : c ∈ U) (h : InScope b U s) :
    InScope b U (tryAdmitUrl s c) ∧ phi U (tryAdmitUrl s c) ≤ phi U s := by
  obtain ⟨hps, hfs⟩ := h
  unfold tryAdmitUrl
  split
  · rename_i hg
    constructor
    · constructor
      · intro p hp
        rcases List.mem_append.mp hp with hp | hp
        · exact hps p hp
        · have : p = c := by simpa using hp
          subst this
          exact Or.inr hc
      · intro q hq
        rcases List.mem_append.mp hq with hq | hq
        · exact hfs q hq
        · have : q = c := by simpa using hq
          subst this; exact hc
    · unfold phi
      have hfr : (s.freqs ++ [c]).toFinset = insert c s.freqs.toFinset := by
        ext x; simp [or_comm]
      have hcmem : c ∈ U.toFinset \ s.freqs.toFinset := by
        simp only [Finset.mem_sdiff, List.mem_toFinset]
        exact ⟨hc, hg.2⟩
      have hsd : U.toFinset \ insert c s.freqs.toFinset =
          (U.toFinset \ s.freqs.toFinset).erase c := by
        ext x; simp only [Finset.mem_sdiff, Finset.mem_insert, Finset.mem_erase]; tauto
      have hpos : 0 < (U.toFinset \ s.freqs.toFinset).card :=
        Finset.card_pos.mpr ⟨c, hcmem⟩
      simp only [hfr, hsd, Finset.card_erase_of_mem hcmem, List.length_append,
        List.length_singleton]
      omega
  · exact ⟨⟨hps, hfs⟩, le_refl _⟩

theorem processLink_scope_phi (b bU pU : Str) (U : List Str) (s : CrawlState) (href : Str)
    (hcand : ∀ c, normalizeLink bU pU href = some c → c ∈ U) (h : InScope b U s) :
    InScope b U (processLink bU pU s href) ∧ phi U (processLink bU pU s href) ≤ phi U s := by
  unfold processLink
  cases hn : normalizeLink bU pU href with
  | none => exact ⟨h, le_refl _⟩
  | some c => exact tryAdmit_scope_phi b U s c (hcand c hn) h

theorem foldl_processLink_scope_phi (b bU pU : Str) (U : List Str) (links : List Str)
    (s : CrawlState)
    (hcand : ∀ href ∈ links, ∀ c, normalizeLink bU pU href = some c → c ∈ U)
    (h : InScope b U s) :
    InScope b U (links.foldl (fun st href => processLink bU pU st href) s) ∧
    phi U (links.foldl (fun st href => processLink bU pU st href) s) ≤ phi U s := by
  induction links generalizing s with
  | nil => exact ⟨h, le_refl _⟩
  | cons x xs ih =>
    rw [List.foldl_cons]
    have h1 := processLink_scope_phi b bU pU U s x
      (fun c hc => hcand x (List.mem_cons_self _ _) c hc) h
    have h2 := ih _ (fun href hh c hc => hcand href (List.mem_cons_of_mem _ hh) c hc) h1.1
    exact ⟨h2.1, le_trans h2.2 h1.2⟩

theorem processUrl_scope_phi (fetch : Str → FetchResult) (b bU : Str) (U : List Str)
    (s : CrawlState) (u : Str)
    (hcand : ∀ href ∈ linksOf (fetch u), ∀ c, normalizeLink bU u href = some c → c ∈ U)
    (h : InScope b U s) :
    InScope b U (processUrl fetch bU s u) ∧ phi U (processUrl fetch bU s u) ≤ phi U s := by
  unfold processUrl
  cases hf : fetch u with
  | failure => exact ⟨h, le_refl _⟩
  | ok status ct body =>
    dsimp only
    split
    · exact ⟨h, le_refl _⟩
    · split
      · exact ⟨h, le_refl _⟩
      · cases body with
        | none => exact ⟨h, le_refl _⟩
        | some links =>
          have hcand' : ∀ href ∈ links, ∀ c, normalizeLink bU u href = some c → c ∈ U := by
            intro href hh c hc
            exact hcand href (by simp [hf, linksOf, hh]) c hc
          exact foldl_processLink_scope_phi b bU u U links _ hcand' h

theorem crawlStep_scope_phi (fetch : Str → FetchResult) (b : Str) (U : List Str)
    (hcl : admissionClosed fetch b U = true) {s s' : CrawlState} {d : Option Str}
    (h : InScope b U s) (hs : crawlStep fetch b s = some (d, s')) :
    InScope b U s' ∧ phi U s' < phi U s := by
  obtain ⟨hps, hfs⟩ := h
  cases hp : s.pending with
  | nil => simp [crawlStep, hp] at hs
  | cons u rest =>
    simp only [crawlStep, hp] at hs
    by_cases hv : u ∈ s.visited
    · rw [if_pos hv] at hs
      simp only [Option.some.injEq, Prod.mk.injEq] at hs
      obtain ⟨_, hs2⟩ := hs
      subst hs2
      refine ⟨⟨fun p hpr => hps p (hp ▸ List.mem_cons_of_mem _ hpr), hfs⟩, ?_⟩
      simp only [phi, hp]
      simp
    · rw [if_neg hv] at hs
      simp only [Option.some.injEq, Prod.mk.injEq] at hs
      obtain ⟨_, hs2⟩ := hs
      subst hs2
      have hu : u = b ∨ u ∈ U := hps u (hp ▸ List.mem_cons_self _ _)
      have hmid : InScope b U { s with pending := rest, visited := s.visited ++ [u] } :=
        ⟨fun p hpr => hps p (hp ▸ List.mem_cons_of_mem _ hpr), hfs⟩
      have hcand := admissionClosed_spec hcl u hu
      have hres := processUrl_scope_phi fetch b b U
        { s with pending := rest, visited := s.visited ++ [u] } u hcand hmid
      refine ⟨hres.1, lt_of_le_of_lt hres.2 ?_⟩
      simp only [phi, hp]
      simp

theorem crawl_drains (fetch : Str → FetchResult) (b : Str) (U : List Str)
    (hcl : admissionClosed fetch b U = true) :
    ∀ (fuel : Nat) (s : CrawlState), InScope b U s → phi U s ≤ fuel →
      (crawl fetch b fuel s).1.pending = [] := by
  intro fuel
  induction fuel with
  | zero =>
    intro s _ hphi
    have hlen : s.pending.length = 0 := by
      unfold phi at hphi; omega
    simpa [crawl] using List.length_eq_zero.mp hlen
  | succ m ih =>
    intro s h hphi
    cases hs : crawlStep fetch b s with
    | none =>
      have hemp : s.pending = [] := by
        cases hp : s.pending with
        | nil => rfl
        | cons u rest =>
          simp only [crawlStep, hp] at hs
          by_cases hv : u ∈ s.visited
          · rw [if_pos hv] at hs; exact absurd hs (by simp)
          · rw [if_neg hv] at hs; exact absurd hs (by simp)
      simp [crawl, hs, hemp]
    | some r =>
      obtain ⟨d, s'⟩ := r
      obtain ⟨h', hlt⟩ := crawlStep_scope_phi fetch b U hcl h hs
      have := ih s' h' (by omega)
      simpa [crawl, hs] using this

/-- C3: termination of the crawl loop. If a finite universe `U` is closed
under link discovery (every normalized admitted link of every fetched page
lies in `U`), the sequential dispatch loop started on the seeded state
reaches the drained condition — an empty pending queue with no work in
flight — within `1 + |U|` iterations, and the list of URLs dispatched to
workers contains no URL twice. -/
theorem C3_termination (fetch : Str → FetchResult) (b : Str) (U : List Str) (fuel : Nat)
    (hcl : admissionClosed fetch b U = true) (hfuel : 1 + U.length ≤ fuel) :
    (crawl fetch b fuel (initState b)).1.pending = [] ∧
    (crawl fetch b fuel (initState b)).2.Nodup := by
  refine ⟨?_, crawl_trace_nodup fetch b fuel _⟩
  apply crawl_drains fetch b U hcl fuel
  · constructor
    · intro p hp
      exact Or.inl (by simpa [initState] using hp)
    · intro q hq
      simp [initState] at hq
  · have hcard : U.toFinset.card ≤ U.length := U.toFinset_card_le
    simp only [phi, initState]
    simp only [List.length_singleton, List.toFinset_nil, Finset.sdiff_empty]
    omega

/-- A two-page site used by the termination witness: the base page links to
one further in-prefix page, which links nowhere. -/
def exTinyBase : Str := ("https://e.com/a").toList

/-- The discovered page of the two-page site. -/
def exTinyNext : Str := ("https://e.com/ab").toList

/-- Fetch capability of the two-page site. -/
def exTinyFetch : Str → FetchResult := fun u =>
  if u = exTinyBase then .ok 200 (("text/html").toList) (some [exTinyNext])
  else if u = exTinyNext then .ok 200 (("text/html").toList) (some [])
  else .failure

set_option maxHeartbeats 4000000 in
/-- Witness for C3 on the two-page site with fuel `2 = 1 + |U|`. -/
theorem C3_termination_witness :
    (crawl exTinyFetch exTinyBase 2 (initState exTinyBase)).1.pending = [] ∧
    (crawl exTinyFetch exTinyBase 2 (initState exTinyBase)).2.Nodup :=
  C3_termination exTinyFetch exTinyBase [exTinyNext] 2 (by decide) (by decide)
